import Mathlib

/-!
Shallow embedding of `utils/torch_utils.py` (the custom Adagrad optimizer
`MyAdagrad` and the small helper functions), together with theorems checking
the natural-language specification of the module against the code.

Tensors of a fixed shape are modelled as functions `Fin n → ℚ`; a sparse
gradient is a list of (index, value) pairs over an implicitly-zero tensor.
Exact rational arithmetic replaces floating point, and the elementwise square
root of the host tensor library is an explicit function parameter `sq`, so
every statement about the update rule holds for an arbitrary square-root
function.
-/

/-- Hyperparameters of one parameter group (`defaults` dict in `MyAdagrad.__init__`). -/
structure Hyper where
  lr : ℚ
  lr_decay : ℚ
  init_accu_value : ℚ
  weight_decay : ℚ
deriving DecidableEq, Repr

/-- Per-parameter optimizer state: the parameter tensor `p` (mutated in place by
`step`), the accumulator `sum`, and the per-parameter call counter `step`,
as held in `self.state[p]`. -/
structure ParamState (n : Nat) where
  p : Fin n → ℚ
  sum : Fin n → ℚ
  step : Nat

/-- A gradient tensor: either dense, or sparse as (index, value) pairs
(`p.grad.data.is_sparse` dispatch in `MyAdagrad.step`). -/
inductive Grad (n : Nat) where
  | dense (g : Fin n → ℚ)
  | sparse (entries : List (Fin n × ℚ))

/-- The epsilon `1e-10` added after the square root in `step`. -/
def eps10 : ℚ := 1 / 10 ^ 10

/-- Total value a sparse entry list carries at index `i` (sum over all pairs
with that index; 0 when the index is absent). -/
def valAt {n : Nat} (l : List (Fin n × ℚ)) (i : Fin n) : ℚ :=
  ((l.filter (fun e => e.1 = i)).map (fun e => e.2)).sum

/-- `grad.coalesce()`: deduplicate indices, summing values at colliding
indices, as the torch sparse-tensor contract specifies. -/
def coalesce {n : Nat} (l : List (Fin n × ℚ)) : List (Fin n × ℚ) :=
  ((l.map Prod.fst).dedup).map (fun i => (i, valAt l i))

/-- `state["sum"].add_(make_sparse(grad_values.pow(2)))`: add the square of each
sparse value into the accumulator at its index. -/
def sparseAddSq {n : Nat} (s : Fin n → ℚ) : List (Fin n × ℚ) → (Fin n → ℚ)
  | [] => s
  | e :: t => sparseAddSq (Function.update s e.1 (s e.1 + e.2 ^ 2)) t

/-- `p.data.add_(-clr, make_sparse(grad_values / std_values))` where
`std_values = sum'[i].sqrt() + 1e-10` at each sparse index, `sum'` being the
already-updated accumulator. -/
def sparseUpdateP {n : Nat} (sq : ℚ → ℚ) (clr : ℚ) (sum' : Fin n → ℚ)
    (p : Fin n → ℚ) : List (Fin n × ℚ) → (Fin n → ℚ)
  | [] => p
  | e :: t =>
      sparseUpdateP sq clr sum'
        (Function.update p e.1 (p e.1 + (-clr) * (e.2 / (sq (sum' e.1) + eps10)))) t

/-- The body of `MyAdagrad.step` for a single parameter whose gradient is
present. `Except.error` models the `RuntimeError` raised for sparse gradients
with nonzero weight decay; its payload is the state as mutated up to the raise
(the `step` counter was already incremented). -/
def stepParam {n : Nat} (sq : ℚ → ℚ) (h : Hyper) (s : ParamState n) (g : Grad n) :
    Except (ParamState n) (ParamState n) :=
  let newStep := s.step + 1
  let clr := h.lr / (1 + ((newStep : ℚ) - 1) * h.lr_decay)
  match g with
  | .sparse l =>
      if h.weight_decay ≠ 0 then
        .error { s with step := newStep }
      else
        let c := coalesce l
        let sum' := sparseAddSq s.sum c
        let p' := sparseUpdateP sq clr sum' s.p c
        .ok ⟨p', sum', newStep⟩
  | .dense g0 =>
      let grad := if h.weight_decay ≠ 0 then (fun i => g0 i + h.weight_decay * s.p i) else g0
      let sum' := fun i => s.sum i + grad i * grad i
      let p' := fun i => s.p i + (-clr) * (grad i / (sq (sum' i) + eps10))
      .ok ⟨p', sum', newStep⟩

/-- The state a `step` call leaves behind, whether it returned or raised
(Python mutates the state in place, so the error payload is also a state). -/
def stateOf {n : Nat} : Except (ParamState n) (ParamState n) → ParamState n
  | .ok s => s
  | .error s => s

/-- A sequence of `step` calls on one parameter; `none` models a call where
`p.grad is None` (the parameter is skipped). A raise aborts the sequence. -/
def runSteps {n : Nat} (sq : ℚ → ℚ) (h : Hyper) (s : ParamState n) :
    List (Option (Grad n)) → Except (ParamState n) (ParamState n)
  | [] => .ok s
  | none :: t => runSteps sq h s t
  | some g :: t =>
      match stepParam sq h s g with
      | .ok s' => runSteps sq h s' t
      | .error s' => .error s'

/-- One `step` call over a list of parameters of a single group, in iteration
order: a raise aborts the loop, keeping the updates already applied and
leaving the remaining parameters untouched. -/
def stepAll {n : Nat} (sq : ℚ → ℚ) (h : Hyper) :
    List (ParamState n × Option (Grad n)) → Except (List (ParamState n)) (List (ParamState n))
  | [] => .ok []
  | (s, none) :: t =>
      match stepAll sq h t with
      | .ok rest => .ok (s :: rest)
      | .error rest => .error (s :: rest)
  | (s, some g) :: t =>
      match stepParam sq h s g with
      | .error s' => .error (s' :: t.map Prod.fst)
      | .ok s' =>
          match stepAll sq h t with
          | .ok rest => .ok (s' :: rest)
          | .error rest => .error (s' :: rest)

/-- `MyAdagrad.__init__`: for every parameter in every group, a state record
with `step = 0` and `sum = torch.ones(p.size()) * init_accu_value`. -/
def adagradInit {n : Nat} (h : Hyper) (groups : List (List (Fin n → ℚ))) :
    List (List (ParamState n)) :=
  groups.map (fun ps => ps.map (fun pv => ⟨pv, fun _ => 1 * h.init_accu_value, 0⟩))

/-- Construction state of a single parameter (one cell of `adagradInit`). -/
def initState {n : Nat} (h : Hyper) (pv : Fin n → ℚ) : ParamState n :=
  ⟨pv, fun _ => 1 * h.init_accu_value, 0⟩

/-- Result of `get_optimizer`: which torch optimizer object is constructed. -/
inductive OptChoice where
  | sgd
  | myadagrad (init_accu_value : ℚ)
  | adam
  | adamax
deriving DecidableEq, Repr

/-- Python's `str.strip()` with no argument: remove leading and trailing
whitespace characters. -/
def strip (s : String) : String :=
  { data := ((s.data.dropWhile Char.isWhitespace).reverse.dropWhile Char.isWhitespace).reverse }

/-- `get_optimizer(name, parameters, lr)`: strip the name, dispatch on exact
string equality; unknown names raise `Exception("Unsupported optimizer: ...")`. -/
def get_optimizer (name : String) : Except String OptChoice :=
  let name := strip name
  if name = "sgd" then .ok .sgd
  else if name = "adagrad" ∨ name = "myadagrad" then .ok (.myadagrad (1 / 10))
  else if name = "adam" then .ok .adam
  else if name = "adamax" then .ok .adamax
  else .error ("Unsupported optimizer: " ++ name)

/-- `flatten_indices(seq_lens, width)`: for each row `i` of length `l`,
append `i * width + j` for `j < l`. -/
def flatten_indices (seq_lens : List Nat) (width : Nat) : List Nat :=
  seq_lens.enum.flatMap (fun il => (List.range il.2).map (fun j => il.1 * width + j))

/-- Loop body of `arg_max`: `if l[k] > bvl: bvl = l[k]; bid = k`, acting on the
accumulator `(bid, bvl)`. -/
def argmaxStep (acc : Int × ℚ) (kv : Nat × ℚ) : Int × ℚ :=
  if kv.2 > acc.2 then ((kv.1 : Int), kv.2) else acc

/-- `arg_max(l)`: linear scan starting from `bvl, bid = -1, -1`, replacing on
strict improvement, returning `(bid, bvl)`. -/
def arg_max (l : List ℚ) : Int × ℚ :=
  l.enum.foldl argmaxStep ((-1 : Int), (-1 : ℚ))

section ValAtLemmas

variable {n : Nat}

/-- `valAt` on a cons. -/
lemma valAt_cons (j : Fin n) (v : ℚ) (t : List (Fin n × ℚ)) (i : Fin n) :
    valAt ((j, v) :: t) i = (if j = i then v else 0) + valAt t i := by
  by_cases hji : j = i <;> simp [valAt, hji]

/-- An index absent from the entry list carries total value 0. -/
lemma valAt_of_not_mem {l : List (Fin n × ℚ)} {i : Fin n}
    (hi : i ∉ l.map Prod.fst) : valAt l i = 0 := by
  induction l with
  | nil => simp [valAt]
  | cons e t ih =>
      obtain ⟨j, v⟩ := e
      simp only [List.map_cons, List.mem_cons] at hi
      push_neg at hi
      rw [valAt_cons, ih hi.2, if_neg (Ne.symm hi.1), add_zero]

/-- `valAt` is additive over list append. -/
lemma valAt_append (l₁ l₂ : List (Fin n × ℚ)) (i : Fin n) :
    valAt (l₁ ++ l₂) i = valAt l₁ i + valAt l₂ i := by
  simp [valAt, List.filter_append]

/-- `valAt` of a graph-like list `L.map (fun j => (j, f j))` with `L` nodup. -/
lemma valAt_map_graph {L : List (Fin n)} (hL : L.Nodup) (f : Fin n → ℚ) (i : Fin n) :
    valAt (L.map (fun j => (j, f j))) i = if i ∈ L then f i else 0 := by
  induction L with
  | nil => simp [valAt]
  | cons j t ih =>
      simp only [List.nodup_cons] at hL
      rw [List.map_cons, valAt_cons, ih hL.2]
      by_cases hji : j = i
      · subst hji
        simp [hL.1]
      · simp [hji, Ne.symm hji, List.mem_cons]

/-- Coalescing preserves the total value at every index. -/
lemma valAt_coalesce (l : List (Fin n × ℚ)) (i : Fin n) :
    valAt (coalesce l) i = valAt l i := by
  unfold coalesce
  rw [valAt_map_graph (l.map Prod.fst).nodup_dedup]
  by_cases hi : i ∈ (l.map Prod.fst).dedup
  · simp [hi]
  · rw [if_neg hi]
    rw [List.mem_dedup] at hi
    exact (valAt_of_not_mem hi).symm

/-- The coalesced list has pairwise-distinct indices. -/
lemma coalesce_nodup (l : List (Fin n × ℚ)) :
    ((coalesce l).map Prod.fst).Nodup := by
  unfold coalesce
  rw [List.map_map]
  simpa [Function.comp_def] using (l.map Prod.fst).nodup_dedup

end ValAtLemmas

section SparseChar

variable {n : Nat}

/-- With pairwise-distinct indices, adding the squared values pointwise yields
`s i + (valAt l i) ^ 2` (the absent-index case degenerates to `+ 0`). -/
lemma sparseAddSq_eq {l : List (Fin n × ℚ)} (hnd : (l.map Prod.fst).Nodup)
    (s : Fin n → ℚ) (i : Fin n) :
    sparseAddSq s l i = s i + (valAt l i) ^ 2 := by
  induction l generalizing s with
  | nil => simp [sparseAddSq, valAt]
  | cons e t ih =>
      obtain ⟨j, v⟩ := e
      simp only [List.map_cons, List.nodup_cons] at hnd
      rw [sparseAddSq, ih hnd.2, valAt_cons]
      by_cases hji : j = i
      · subst hji
        rw [valAt_of_not_mem hnd.1]
        simp [Function.update]
      · simp [Function.update, Ne.symm hji, hji]

/-- With pairwise-distinct indices, the sparse parameter update yields
`p i - clr * valAt l i / (sq (sum' i) + eps10)` pointwise. -/
lemma sparseUpdateP_eq (sq : ℚ → ℚ) (clr : ℚ) (sum' : Fin n → ℚ)
    {l : List (Fin n × ℚ)} (hnd : (l.map Prod.fst).Nodup) (p : Fin n → ℚ) (i : Fin n) :
    sparseUpdateP sq clr sum' p l i
      = p i + (-clr) * (valAt l i / (sq (sum' i) + eps10)) := by
  induction l generalizing p with
  | nil => simp [sparseUpdateP, valAt]
  | cons e t ih =>
      obtain ⟨j, v⟩ := e
      simp only [List.map_cons, List.nodup_cons] at hnd
      rw [sparseUpdateP, ih hnd.2, valAt_cons]
      by_cases hji : j = i
      · subst hji
        rw [valAt_of_not_mem hnd.1]
        simp [Function.update]
      · simp [Function.update, Ne.symm hji, hji]

/-- Characterization of the sparse branch of `step` with zero weight decay:
the resulting state depends on the entry list only through `valAt`. -/
lemma stepParam_sparse_char (sq : ℚ → ℚ) (h : Hyper) (hwd : h.weight_decay = 0)
    (s : ParamState n) (l : List (Fin n × ℚ)) :
    stepParam sq h s (Grad.sparse l)
      = Except.ok
          ⟨fun i => s.p i
              + (-(h.lr / (1 + (((s.step + 1 : ℕ) : ℚ) - 1) * h.lr_decay)))
                * (valAt l i / (sq (s.sum i + (valAt l i) ^ 2) + eps10)),
            fun i => s.sum i + (valAt l i) ^ 2,
            s.step + 1⟩ := by
  have hnd := coalesce_nodup l
  have hsum : sparseAddSq s.sum (coalesce l) = fun i => s.sum i + (valAt l i) ^ 2 := by
    funext i
    rw [sparseAddSq_eq hnd, valAt_coalesce]
  have hp : ∀ clr : ℚ,
      sparseUpdateP sq clr (fun i => s.sum i + (valAt l i) ^ 2) s.p (coalesce l)
        = fun i => s.p i + (-clr) * (valAt l i / (sq (s.sum i + (valAt l i) ^ 2) + eps10)) := by
    intro clr
    funext i
    rw [sparseUpdateP_eq sq clr _ hnd, valAt_coalesce]
  simp only [stepParam, hwd, ne_eq, not_true_eq_false, not_false_eq_true, ite_false,
    if_neg, hp, hsum]

/-- Characterization of the dense branch of `step` with zero weight decay. -/
lemma stepParam_dense_wd0 (sq : ℚ → ℚ) (h : Hyper) (hwd : h.weight_decay = 0)
    (s : ParamState n) (g : Fin n → ℚ) :
    stepParam sq h s (Grad.dense g)
      = Except.ok
          ⟨fun i => s.p i
              + (-(h.lr / (1 + (((s.step + 1 : ℕ) : ℚ) - 1) * h.lr_decay)))
                * (g i / (sq (s.sum i + g i * g i) + eps10)),
            fun i => s.sum i + g i * g i,
            s.step + 1⟩ := by
  simp only [stepParam, hwd, ne_eq, not_true_eq_false, not_false_eq_true, ite_false, if_neg]

end SparseChar

/-- C1: for a dense gradient and zero weight decay, one `step` call increments
the parameter's counter to `k = step + 1`, uses `clr = lr / (1 + (k - 1) *
lr_decay)`, accumulates `sum' = sum + g ⊙ g` elementwise, and sets
`p' = p - clr * g / (sqrt(sum') + 1e-10)` elementwise, for any square-root
function `sq`. -/
theorem dense_step_update_rule {n : Nat} (sq : ℚ → ℚ) (h : Hyper)
    (hwd : h.weight_decay = 0) (s : ParamState n) (g : Fin n → ℚ) :
    ∃ s' : ParamState n,
      stepParam sq h s (Grad.dense g) = Except.ok s'
        ∧ s'.step = s.step + 1
        ∧ (∀ i, s'.sum i = s.sum i + g i * g i)
        ∧ (∀ i, s'.p i
            = s.p i - h.lr / (1 + (((s.step + 1 : ℕ) : ℚ) - 1) * h.lr_decay)
                * g i / (sq (s.sum i + g i * g i) + eps10)) := by
  rw [stepParam_dense_wd0 sq h hwd s g]
  refine ⟨_, rfl, rfl, fun i => rfl, fun i => ?_⟩
  show s.p i + _ * _ = _
  ring

/-- C1 witness: the dense update rule applied at a concrete one-element
parameter with `lr = 1`, `lr_decay = 0`, `sum = 1/10`, `p = 2`, `g = 1`. -/
theorem dense_step_update_rule_witness :
    ∃ s' : ParamState 1,
      stepParam id ⟨1, 0, 1/10, 0⟩ ⟨fun _ => 2, fun _ => 1/10, 0⟩ (Grad.dense fun _ => 1)
          = Except.ok s'
        ∧ s'.step = 0 + 1
        ∧ (∀ i, s'.sum i = 1/10 + 1 * 1)
        ∧ (∀ i, s'.p i
            = 2 - 1 / (1 + (((0 + 1 : ℕ) : ℚ) - 1) * 0) * 1 / (id (1/10 + 1 * 1) + eps10)) := by
  exact dense_step_update_rule id ⟨1, 0, 1/10, 0⟩ rfl ⟨fun _ => 2, fun _ => 1/10, 0⟩ (fun _ => 1)

/-- C2 counterexample: with `weight_decay = 1`, the same gradient fed densely
succeeds while fed sparsely it raises, so the dense and sparse paths do not
agree for every starting optimizer state. -/
theorem sparse_dense_equiv_counterexample :
    stepParam id ⟨1, 0, 1/10, 1⟩ ⟨fun _ => 0, fun _ => 1/10, 0⟩
        (Grad.sparse [((0 : Fin 1), 1)])
        = Except.error ⟨fun _ => 0, fun _ => 1/10, 1⟩
      ∧ stepParam id ⟨1, 0, 1/10, 1⟩ ⟨fun _ => 0, fun _ => 1/10, 0⟩
          (Grad.dense fun _ => 1)
        ≠ stepParam id ⟨1, 0, 1/10, 1⟩ ⟨fun _ => 0, fun _ => 1/10, 0⟩
          (Grad.sparse [((0 : Fin 1), 1)]) := by
  refine ⟨rfl, fun hEq => ?_⟩
  simp [stepParam] at hEq

/-- C2 (amended with `weight_decay = 0`): a gradient fed once densely and once
as a sparse entry list carrying the same value at every index (no zero values,
no duplicate indices) produces identical post-update parameter and accumulator
values — the two paths of `step` compute the same update. -/
theorem sparse_dense_equiv {n : Nat} (sq : ℚ → ℚ) (h : Hyper)
    (hwd : h.weight_decay = 0) (s : ParamState n) (g : Fin n → ℚ)
    (l : List (Fin n × ℚ)) (hrep : ∀ i, valAt l i = g i)
    (_hnz : ∀ e ∈ l, e.2 ≠ 0) (_hnd : (l.map Prod.fst).Nodup) :
    stepParam sq h s (Grad.dense g) = stepParam sq h s (Grad.sparse l) := by
  rw [stepParam_dense_wd0 sq h hwd s g, stepParam_sparse_char sq h hwd s l]
  have hpow : ∀ i, (valAt l i) ^ 2 = g i * g i := by
    intro i
    rw [hrep i, pow_two]
  have h1 : (fun i => s.sum i + (valAt l i) ^ 2) = fun i => s.sum i + g i * g i := by
    funext i
    rw [hpow i]
  have h2 : (fun i => s.p i
        + (-(h.lr / (1 + (((s.step + 1 : ℕ) : ℚ) - 1) * h.lr_decay)))
          * (valAt l i / (sq (s.sum i + (valAt l i) ^ 2) + eps10)))
      = fun i => s.p i
        + (-(h.lr / (1 + (((s.step + 1 : ℕ) : ℚ) - 1) * h.lr_decay)))
          * (g i / (sq (s.sum i + g i * g i) + eps10)) := by
    funext i
    rw [hpow i, hrep i]
  rw [h1, h2]

/-- C2 witness: sparse/dense equivalence at a concrete two-element parameter,
gradient `(3, 4)` represented densely and as entries `[(0,3),(1,4)]`. -/
theorem sparse_dense_equiv_witness :
    stepParam id ⟨1, 0, 1/10, 0⟩
        (⟨fun _ => 2, fun _ => 1/10, 0⟩ : ParamState 2)
        (Grad.dense fun i => if i = 0 then 3 else 4)
      = stepParam id ⟨1, 0, 1/10, 0⟩ ⟨fun _ => 2, fun _ => 1/10, 0⟩
        (Grad.sparse [(0, 3), (1, 4)]) := by
  refine sparse_dense_equiv id ⟨1, 0, 1/10, 0⟩ rfl ⟨fun _ => 2, fun _ => 1/10, 0⟩
    (fun i => if i = 0 then 3 else 4) [(0, 3), (1, 4)] ?_ (by decide) (by decide)
  intro i
  fin_cases i <;> simp [valAt]

/-- C6: a sparse gradient in which index `i` appears twice with values `a` and
`b` gives exactly the same `step` result as a single entry `(i, a + b)` in its
place: duplicate indices are coalesced by summation before squaring and
updating. -/
theorem sparse_coalescing {n : Nat} (sq : ℚ → ℚ) (h : Hyper) (s : ParamState n)
    (l₁ l₂ l₃ : List (Fin n × ℚ)) (i : Fin n) (a b : ℚ) :
    stepParam sq h s (Grad.sparse (l₁ ++ (i, a) :: (l₂ ++ (i, b) :: l₃)))
      = stepParam sq h s (Grad.sparse (l₁ ++ (i, a + b) :: (l₂ ++ l₃))) := by
  by_cases hwd : h.weight_decay = 0
  · rw [stepParam_sparse_char sq h hwd, stepParam_sparse_char sq h hwd]
    have hval : ∀ j, valAt (l₁ ++ (i, a) :: (l₂ ++ (i, b) :: l₃)) j
        = valAt (l₁ ++ (i, a + b) :: (l₂ ++ l₃)) j := by
      intro j
      simp only [valAt_append, valAt_cons]
      by_cases hij : i = j
      · simp only [hij, if_pos]
        ring
      · simp only [if_neg hij]
        ring
    simp only [hval]
  · simp only [stepParam]
    rw [if_pos hwd, if_pos hwd]

/-- C3: immediately after `MyAdagrad` construction, every parameter of every
group has a state record with `step = 0` and accumulator constantly equal to
`init_accu_value` over the parameter's whole shape; every registered parameter
has such a record. -/
theorem init_state_records {n : Nat} (h : Hyper) (groups : List (List (Fin n → ℚ))) :
    (∀ grp ∈ adagradInit h groups, ∀ st ∈ grp,
        st.step = 0 ∧ ∀ i, st.sum i = h.init_accu_value)
      ∧ (∀ gI ∈ groups, ∀ pv ∈ gI,
          ∃ grp ∈ adagradInit h groups, ∃ st ∈ grp,
            st.p = pv ∧ st.step = 0 ∧ ∀ i, st.sum i = h.init_accu_value) := by
  constructor
  · intro grp hg st hst
    simp only [adagradInit, List.mem_map] at hg
    obtain ⟨ps, _, rfl⟩ := hg
    simp only [List.mem_map] at hst
    obtain ⟨pv, _, rfl⟩ := hst
    exact ⟨rfl, fun i => one_mul _⟩
  · intro gI hgI pv hpv
    refine ⟨gI.map (fun pv => ⟨pv, fun _ => 1 * h.init_accu_value, 0⟩), ?_,
      ⟨pv, fun _ => 1 * h.init_accu_value, 0⟩, ?_, rfl, rfl, fun i => one_mul _⟩
    · exact List.mem_map_of_mem _ hgI
    · exact List.mem_map_of_mem _ hpv

/-- C3 witness: the construction invariant at one concrete group holding one
one-element parameter. -/
theorem init_state_records_witness :
    ∃ grp ∈ adagradInit (n := 1) ⟨1, 0, 1/10, 0⟩ [[fun _ => 5]], ∃ st ∈ grp,
      st.p = (fun _ => 5) ∧ st.step = 0
        ∧ ∀ i, st.sum i = (Hyper.mk 1 0 (1/10) 0).init_accu_value :=
  (init_state_records ⟨1, 0, 1/10, 0⟩ [[fun _ => 5]]).2
    [fun _ => 5] (List.mem_singleton.mpr rfl) (fun _ => 5) (List.mem_singleton.mpr rfl)

section Monotone

variable {n : Nat}

/-- Each accumulator element never decreases across one `step` call on one
parameter, whether the call returns or raises. -/
lemma stepParam_sum_mono (sq : ℚ → ℚ) (h : Hyper) (s : ParamState n) (g : Grad n)
    (i : Fin n) : s.sum i ≤ (stateOf (stepParam sq h s g)).sum i := by
  cases g with
  | dense g0 =>
      simp only [stepParam, stateOf]
      exact le_add_of_nonneg_right (mul_self_nonneg _)
  | sparse l =>
      by_cases hwd : h.weight_decay = 0
      · rw [stepParam_sparse_char sq h hwd]
        simp only [stateOf]
        exact le_add_of_nonneg_right (sq_nonneg _)
      · simp only [stepParam]
        rw [if_pos hwd]
        simp only [stateOf]
        exact le_rfl

/-- Accumulator elements never decrease across any sequence of `step` calls. -/
lemma runSteps_sum_mono (sq : ℚ → ℚ) (h : Hyper) (s : ParamState n)
    (gs : List (Option (Grad n))) (i : Fin n) :
    s.sum i ≤ (stateOf (runSteps sq h s gs)).sum i := by
  induction gs generalizing s with
  | nil => simp [runSteps, stateOf]
  | cons g? t ih =>
      cases g? with
      | none => simpa [runSteps] using ih s
      | some g =>
          simp only [runSteps]
          cases hsp : stepParam sq h s g with
          | ok s' =>
              have h1 : s.sum i ≤ s'.sum i := by
                simpa [hsp, stateOf] using stepParam_sum_mono sq h s g i
              exact h1.trans (ih s')
          | error s' =>
              have h1 : s.sum i ≤ s'.sum i := by
                simpa [hsp, stateOf] using stepParam_sum_mono sq h s g i
              simpa [stateOf] using h1

end Monotone

/-- C4 counterexample: constructing with `init_accu_value = -1` (which the code
accepts) and taking one `step` with a zero dense gradient leaves a negative
accumulator element, so the accumulator is not non-negative for every
optimizer the code can build. -/
theorem sum_nonneg_counterexample :
    (stateOf (runSteps id ⟨1, 0, -1, 0⟩ (initState ⟨1, 0, -1, 0⟩ (fun _ => 0))
        [some (Grad.dense (fun _ => 0))])).sum (0 : Fin 1) = -1
      ∧ ¬ (0 : ℚ) ≤ -1 := by
  constructor
  · norm_num [runSteps, stepParam, stateOf, initState]
  · norm_num

/-- C4 (amended): every element of the accumulator is monotonically
non-decreasing across any sequence of `step` calls, and it stays non-negative
provided the optimizer was constructed with `init_accu_value ≥ 0` (as the
default 0.1 is). -/
theorem sum_monotone_and_nonneg :
    (∀ (n : Nat) (sq : ℚ → ℚ) (h : Hyper) (s : ParamState n)
        (gs : List (Option (Grad n))) (i : Fin n),
        s.sum i ≤ (stateOf (runSteps sq h s gs)).sum i)
      ∧ (∀ (n : Nat) (sq : ℚ → ℚ) (h : Hyper), 0 ≤ h.init_accu_value →
          ∀ (pv : Fin n → ℚ) (gs : List (Option (Grad n))) (i : Fin n),
            0 ≤ (stateOf (runSteps sq h (initState h pv) gs)).sum i) := by
  constructor
  · intro n sq h s gs i
    exact runSteps_sum_mono sq h s gs i
  · intro n sq h h0 pv gs i
    have hinit : (0 : ℚ) ≤ (initState h pv).sum i := by
      simpa [initState] using h0
    exact hinit.trans (runSteps_sum_mono sq h (initState h pv) gs i)

/-- C4 witness: monotone accumulation and non-negativity evaluated at a
concrete one-element parameter over a two-call gradient sequence. -/
theorem sum_monotone_and_nonneg_witness :
    ((⟨fun _ => 0, fun _ => 1/10, 0⟩ : ParamState 1).sum 0
        ≤ (stateOf (runSteps id ⟨1, 0, 1/10, 0⟩
            (⟨fun _ => 0, fun _ => 1/10, 0⟩ : ParamState 1)
            [some (Grad.dense fun _ => 2),
              some (Grad.sparse [((0 : Fin 1), 3)])])).sum 0)
      ∧ (0 ≤ (stateOf (runSteps id ⟨1, 0, 1/10, 0⟩
            (initState (n := 1) ⟨1, 0, 1/10, 0⟩ (fun _ => 0))
            [some (Grad.dense fun _ => 2)])).sum 0) :=
  ⟨sum_monotone_and_nonneg.1 1 id ⟨1, 0, 1/10, 0⟩ ⟨fun _ => 0, fun _ => 1/10, 0⟩
      [some (Grad.dense fun _ => 2), some (Grad.sparse [((0 : Fin 1), 3)])] 0,
    sum_monotone_and_nonneg.2 1 id ⟨1, 0, 1/10, 0⟩ (by norm_num) (fun _ => 0)
      [some (Grad.dense fun _ => 2)] 0⟩

/-- C5: with nonzero `weight_decay`, a sparse gradient always makes `step`
raise (never silently skipping the decay), while a dense gradient is replaced
by `gradient + weight_decay * parameter` before the adaptive update. -/
theorem weight_decay_contract :
    (∀ (n : Nat) (sq : ℚ → ℚ) (h : Hyper) (s : ParamState n)
        (l : List (Fin n × ℚ)), h.weight_decay ≠ 0 →
        ∃ serr, stepParam sq h s (Grad.sparse l) = Except.error serr)
      ∧ (∀ (n : Nat) (sq : ℚ → ℚ) (h : Hyper) (s : ParamState n)
          (g : Fin n → ℚ), h.weight_decay ≠ 0 →
          ∃ s', stepParam sq h s (Grad.dense g) = Except.ok s'
            ∧ (∀ i, s'.sum i = s.sum i
                + (g i + h.weight_decay * s.p i) * (g i + h.weight_decay * s.p i))
            ∧ (∀ i, s'.p i = s.p i
                - h.lr / (1 + (((s.step + 1 : ℕ) : ℚ) - 1) * h.lr_decay)
                  * (g i + h.weight_decay * s.p i)
                  / (sq (s.sum i
                      + (g i + h.weight_decay * s.p i) * (g i + h.weight_decay * s.p i))
                    + eps10))) := by
  constructor
  · intro n sq h s l hwd
    refine ⟨{ s with step := s.step + 1 }, ?_⟩
    simp only [stepParam]
    rw [if_pos hwd]
  · intro n sq h s g hwd
    simp only [stepParam]
    rw [if_pos hwd]
    refine ⟨_, rfl, fun i => rfl, fun i => ?_⟩
    show s.p i + _ * _ = _
    ring

/-- C5 witness: both halves of the weight-decay contract evaluated at
`weight_decay = 1` on a concrete one-element parameter. -/
theorem weight_decay_contract_witness :
    (∃ serr, stepParam id ⟨1, 0, 1/10, 1⟩
        (⟨fun _ => 2, fun _ => 1/10, 0⟩ : ParamState 1)
        (Grad.sparse [((0 : Fin 1), 3)]) = Except.error serr)
      ∧ (∃ s', stepParam id ⟨1, 0, 1/10, 1⟩
            (⟨fun _ => 2, fun _ => 1/10, 0⟩ : ParamState 1) (Grad.dense fun _ => 3)
            = Except.ok s'
          ∧ (∀ i, s'.sum i = 1/10 + (3 + 1 * 2) * (3 + 1 * 2))
          ∧ (∀ i, s'.p i = 2 - 1 / (1 + (((0 + 1 : ℕ) : ℚ) - 1) * 0) * (3 + 1 * 2)
              / (id (1/10 + (3 + 1 * 2) * (3 + 1 * 2)) + eps10))) :=
  ⟨weight_decay_contract.1 1 id ⟨1, 0, 1/10, 1⟩ ⟨fun _ => 2, fun _ => 1/10, 0⟩
      [((0 : Fin 1), 3)] (by norm_num),
    weight_decay_contract.2 1 id ⟨1, 0, 1/10, 1⟩ ⟨fun _ => 2, fun _ => 1/10, 0⟩
      (fun _ => 3) (by norm_num)⟩

/-- The state a parameter is left in by one pass of the `step` loop: unchanged
if its gradient is absent, otherwise whatever `stepParam` leaves behind. -/
def afterParam {n : Nat} (sq : ℚ → ℚ) (h : Hyper)
    (e : ParamState n × Option (Grad n)) : ParamState n :=
  match e.2 with
  | none => e.1
  | some g => stateOf (stepParam sq h e.1 g)

/-- A dense gradient never raises, whatever the weight decay. -/
lemma stepParam_dense_ok {n : Nat} (sq : ℚ → ℚ) (h : Hyper) (s : ParamState n)
    (g0 : Fin n → ℚ) :
    stepParam sq h s (Grad.dense g0)
      = Except.ok (stateOf (stepParam sq h s (Grad.dense g0))) := rfl

/-- C9: when the weight-decay/sparse error fires at some parameter of the
iteration, the call is not atomic: parameters visited earlier keep their
already-applied updates, the offending parameter's `step` counter is already
incremented (with `p` and `sum` untouched), and later parameters are left
exactly as they were. -/
theorem step_error_not_atomic {n : Nat} (sq : ℚ → ℚ) (h : Hyper)
    (hwd : h.weight_decay ≠ 0) (pre : List (ParamState n × Option (Grad n)))
    (hpre : ∀ e ∈ pre, e.2 = none ∨ ∃ g0, e.2 = some (Grad.dense g0))
    (s : ParamState n) (l : List (Fin n × ℚ))
    (post : List (ParamState n × Option (Grad n))) :
    stepAll sq h (pre ++ (s, some (Grad.sparse l)) :: post)
      = Except.error (pre.map (afterParam sq h)
          ++ ({ s with step := s.step + 1 } :: post.map Prod.fst)) := by
  induction pre with
  | nil =>
      simp only [List.nil_append, List.map_nil, stepAll]
      have herr : stepParam sq h s (Grad.sparse l)
          = Except.error { s with step := s.step + 1 } := by
        simp only [stepParam]
        rw [if_pos hwd]
      rw [herr]
  | cons e t ih =>
      obtain ⟨s₀, g?⟩ := e
      have ih' := ih (fun e he => hpre e (List.mem_cons_of_mem _ he))
      rcases hpre (s₀, g?) (List.mem_cons_self _ _) with hN | ⟨g0, hD⟩
      · simp only at hN
        subst hN
        simp only [List.cons_append, stepAll, List.append_eq, ih', List.map_cons]
        rfl
      · simp only at hD
        subst hD
        simp only [List.cons_append, stepAll, List.append_eq]
        rw [stepParam_dense_ok sq h s₀ g0, ih']
        rfl

/-- C9 witness: the non-atomic error at a concrete three-parameter iteration —
the first (dense) parameter keeps its update, the second (sparse, offending)
only has its counter bumped, the third is untouched. -/
theorem step_error_not_atomic_witness :
    stepAll id ⟨1, 0, 1/10, 1⟩
        ([((⟨fun _ => 0, fun _ => 1/10, 0⟩ : ParamState 1), some (Grad.dense fun _ => 1))]
          ++ ((⟨fun _ => 5, fun _ => 1/10, 2⟩ : ParamState 1),
                some (Grad.sparse [((0 : Fin 1), 1)]))
            :: [((⟨fun _ => 7, fun _ => 1/10, 4⟩ : ParamState 1), (none : Option (Grad 1)))])
      = Except.error
          ([((⟨fun _ => 0, fun _ => 1/10, 0⟩ : ParamState 1), some (Grad.dense fun _ => 1))].map
              (afterParam id ⟨1, 0, 1/10, 1⟩)
            ++ ({ (⟨fun _ => 5, fun _ => 1/10, 2⟩ : ParamState 1) with step := 2 + 1 }
              :: [((⟨fun _ => 7, fun _ => 1/10, 4⟩ : ParamState 1), (none : Option (Grad 1)))].map Prod.fst)) :=
  step_error_not_atomic id ⟨1, 0, 1/10, 1⟩ (by norm_num)
    [((⟨fun _ => 0, fun _ => 1/10, 0⟩ : ParamState 1), some (Grad.dense fun _ => 1))]
    (by
      intro e he
      rw [List.mem_singleton] at he
      subst he
      exact Or.inr ⟨fun _ => 1, rfl⟩)
    ⟨fun _ => 5, fun _ => 1/10, 2⟩ [((0 : Fin 1), 1)]
    [((⟨fun _ => 7, fun _ => 1/10, 4⟩ : ParamState 1), (none : Option (Grad 1)))]

/-- C7 counterexample: the dispatch is case-sensitive, not case-insensitive —
`"SGD"` is rejected with the unsupported-optimizer error instead of selecting
the SGD optimizer. -/
theorem get_optimizer_case_counterexample :
    get_optimizer "SGD" = Except.error "Unsupported optimizer: SGD"
      ∧ get_optimizer "SGD" ≠ Except.ok OptChoice.sgd := by
  refine ⟨rfl, fun hEq => ?_⟩
  have h1 : get_optimizer "SGD" = Except.error "Unsupported optimizer: SGD" := rfl
  rw [h1] at hEq
  exact Except.noConfusion hEq

/-- C7 (amended): `get_optimizer` trims whitespace, then matches the name
case-SENSITIVELY against the five known names; `"adagrad"` and `"myadagrad"`
both yield the `MyAdagrad` optimizer with `init_accu_value = 0.1`; any other
(trimmed) name is a fatal configuration error. -/
theorem get_optimizer_dispatch (name : String) :
    (strip name = "sgd" → get_optimizer name = Except.ok OptChoice.sgd)
      ∧ ((strip name = "adagrad" ∨ strip name = "myadagrad") →
          get_optimizer name = Except.ok (OptChoice.myadagrad (1 / 10)))
      ∧ (strip name = "adam" → get_optimizer name = Except.ok OptChoice.adam)
      ∧ (strip name = "adamax" → get_optimizer name = Except.ok OptChoice.adamax)
      ∧ (strip name ∉ ["sgd", "adagrad", "myadagrad", "adam", "adamax"] →
          get_optimizer name
            = Except.error ("Unsupported optimizer: " ++ strip name)) := by
  refine ⟨?_, ?_, ?_, ?_, ?_⟩
  · intro hc
    simp [get_optimizer, hc]
  · intro hc
    rcases hc with hc | hc <;> simp [get_optimizer, hc]
  · intro hc
    simp [get_optimizer, hc]
  · intro hc
    simp [get_optimizer, hc]
  · intro hc
    simp only [List.mem_cons, List.not_mem_nil, or_false, not_or] at hc
    obtain ⟨h1, h2, h3, h4, h5⟩ := hc
    simp [get_optimizer, h1, h2, h3, h4, h5]

/-- C7 witness: the amended dispatch evaluated at the five concrete behaviors
(trimming, both adagrad spellings, and an unknown name). -/
theorem get_optimizer_dispatch_witness :
    get_optimizer " sgd " = Except.ok OptChoice.sgd
      ∧ get_optimizer "adagrad" = Except.ok (OptChoice.myadagrad (1 / 10))
      ∧ get_optimizer "myadagrad" = Except.ok (OptChoice.myadagrad (1 / 10))
      ∧ get_optimizer "adam" = Except.ok OptChoice.adam
      ∧ get_optimizer "adamax" = Except.ok OptChoice.adamax
      ∧ get_optimizer "rmsprop" = Except.error ("Unsupported optimizer: " ++ strip "rmsprop") :=
  ⟨(get_optimizer_dispatch " sgd ").1 rfl,
    (get_optimizer_dispatch "adagrad").2.1 (Or.inl rfl),
    (get_optimizer_dispatch "myadagrad").2.1 (Or.inr rfl),
    (get_optimizer_dispatch "adam").2.2.1 rfl,
    (get_optimizer_dispatch "adamax").2.2.2.1 rfl,
    (get_optimizer_dispatch "rmsprop").2.2.2.2 (by decide)⟩

/-- Full characterization of the `arg_max` scan loop over `enumFrom k l` with
an arbitrary accumulator: either no element beats the accumulator and it is
returned unchanged, or the result is the first position attaining the overall
maximum among positions that beat the accumulator. -/
lemma foldl_argmaxStep_spec (l : List ℚ) (k : Nat) (acc : Int × ℚ) :
    ((List.enumFrom k l).foldl argmaxStep acc = acc ∧ ∀ x ∈ l, x ≤ acc.2)
      ∨ (∃ j : Nat, ∃ hj : j < l.length,
          (List.enumFrom k l).foldl argmaxStep acc
              = (((k + j : Nat) : Int), l.get ⟨j, hj⟩)
            ∧ acc.2 < l.get ⟨j, hj⟩
            ∧ (∀ m : Nat, ∀ hm : m < l.length, l.get ⟨m, hm⟩ ≤ l.get ⟨j, hj⟩)
            ∧ (∀ m : Nat, ∀ hm : m < l.length, m < j →
                l.get ⟨m, hm⟩ < l.get ⟨j, hj⟩)) := by
  induction l generalizing k acc with
  | nil => exact Or.inl ⟨rfl, by simp⟩
  | cons x t ih =>
      have hfold : (List.enumFrom k (x :: t)).foldl argmaxStep acc
          = (List.enumFrom (k + 1) t).foldl argmaxStep (argmaxStep acc (k, x)) := rfl
      by_cases hx : x > acc.2
      · have hstep : argmaxStep acc (k, x) = ((k : Int), x) := by
          simp [argmaxStep, hx]
        rcases ih (k + 1) ((k : Int), x) with ⟨heq, hle⟩ | ⟨j, hj, heq, hacc, hmax, hfirst⟩
        · refine Or.inr ⟨0, Nat.succ_pos _, ?_, hx, ?_, ?_⟩
          · rw [hfold, hstep, heq]
            rfl
          · intro m hm
            cases m with
            | zero => exact le_rfl
            | succ m' =>
                exact hle (t.get ⟨m', Nat.lt_of_succ_lt_succ hm⟩) (t.get_mem _ _)
          · intro m hm hm0
            exact absurd hm0 (Nat.not_lt_zero m)
        · refine Or.inr ⟨j + 1, Nat.succ_lt_succ hj, ?_, lt_trans hx hacc, ?_, ?_⟩
          · rw [hfold, hstep, heq, Nat.succ_add_eq_add_succ]
            rfl
          · intro m hm
            cases m with
            | zero => exact le_of_lt hacc
            | succ m' => exact hmax m' (Nat.lt_of_succ_lt_succ hm)
          · intro m hm hmj
            cases m with
            | zero => exact hacc
            | succ m' =>
                exact hfirst m' (Nat.lt_of_succ_lt_succ hm) (Nat.lt_of_succ_lt_succ hmj)
      · have hstep : argmaxStep acc (k, x) = acc := by
          simp [argmaxStep, hx]
        rcases ih (k + 1) acc with ⟨heq, hle⟩ | ⟨j, hj, heq, hacc, hmax, hfirst⟩
        · refine Or.inl ⟨?_, ?_⟩
          · rw [hfold, hstep, heq]
          · intro y hy
            rcases List.mem_cons.mp hy with rfl | hyt
            · exact le_of_not_lt hx
            · exact hle y hyt
        · refine Or.inr ⟨j + 1, Nat.succ_lt_succ hj, ?_, hacc, ?_, ?_⟩
          · rw [hfold, hstep, heq, Nat.succ_add_eq_add_succ]
            rfl
          · intro m hm
            cases m with
            | zero => exact le_of_lt (lt_of_le_of_lt (le_of_not_lt hx) hacc)
            | succ m' => exact hmax m' (Nat.lt_of_succ_lt_succ hm)
          · intro m hm hmj
            cases m with
            | zero => exact lt_of_le_of_lt (le_of_not_lt hx) hacc
            | succ m' =>
                exact hfirst m' (Nat.lt_of_succ_lt_succ hm) (Nat.lt_of_succ_lt_succ hmj)

/-- C8 counterexample: on `[-5]` the scan returns `(-1, -1)`, not the index
and value `(0, -5)` of the maximum element, because the initial best value is
`-1` and `-5` never beats it. -/
theorem arg_max_counterexample :
    arg_max [-5] = (-1, -1) ∧ ((-1 : Int), (-1 : ℚ)) ≠ ((0 : Int), (-5 : ℚ)) := by
  exact ⟨by decide, by decide⟩

/-- C8 (amended): `arg_max` returns `(-1, -1)` on an empty list — and more
generally whenever every element is ≤ -1; when some element exceeds -1 it
returns the index and value of the maximum, at its first occurrence; on
`[3,7,2]` it returns `(1,7)`. -/
theorem arg_max_linear_scan :
    arg_max [] = (-1, -1)
      ∧ arg_max [3, 7, 2] = (1, 7)
      ∧ (∀ l : List ℚ, (∀ x ∈ l, x ≤ -1) → arg_max l = (-1, -1))
      ∧ (∀ l : List ℚ, (∃ x ∈ l, -1 < x) →
          ∃ j : Nat, ∃ hj : j < l.length,
            arg_max l = ((j : Int), l.get ⟨j, hj⟩)
              ∧ (∀ m : Nat, ∀ hm : m < l.length, l.get ⟨m, hm⟩ ≤ l.get ⟨j, hj⟩)
              ∧ (∀ m : Nat, ∀ hm : m < l.length, m < j →
                  l.get ⟨m, hm⟩ < l.get ⟨j, hj⟩)) := by
  refine ⟨rfl, by decide, ?_, ?_⟩
  · intro l hle
    rcases foldl_argmaxStep_spec l 0 ((-1 : Int), (-1 : ℚ)) with ⟨heq, _⟩ |
      ⟨j, hj, _, hacc, _, _⟩
    · exact heq
    · exact absurd (hle (l.get ⟨j, hj⟩) (l.get_mem _ _)) (not_le.mpr hacc)
  · intro l hex
    rcases foldl_argmaxStep_spec l 0 ((-1 : Int), (-1 : ℚ)) with ⟨_, hle⟩ |
      ⟨j, hj, heq, _, hmax, hfirst⟩
    · obtain ⟨x, hx, hgt⟩ := hex
      exact absurd (hle x hx) (not_le.mpr hgt)
    · rw [Nat.zero_add] at heq
      exact ⟨j, hj, heq, hmax, hfirst⟩

/-- C8 witness: the amended scan behavior at `[-2, -3]` (all elements ≤ -1)
and at `[3, 7, 2]` (maximum 7 first attained at index 1). -/
theorem arg_max_linear_scan_witness :
    arg_max [-2, -3] = (-1, -1)
      ∧ ∃ j : Nat, ∃ hj : j < ([3, 7, 2] : List ℚ).length,
          arg_max [3, 7, 2] = ((j : Int), ([3, 7, 2] : List ℚ).get ⟨j, hj⟩)
            ∧ (∀ m : Nat, ∀ hm : m < ([3, 7, 2] : List ℚ).length,
                ([3, 7, 2] : List ℚ).get ⟨m, hm⟩ ≤ ([3, 7, 2] : List ℚ).get ⟨j, hj⟩)
            ∧ (∀ m : Nat, ∀ hm : m < ([3, 7, 2] : List ℚ).length, m < j →
                ([3, 7, 2] : List ℚ).get ⟨m, hm⟩ < ([3, 7, 2] : List ℚ).get ⟨j, hj⟩) :=
  ⟨arg_max_linear_scan.2.2.1 [-2, -3] (by norm_num),
    arg_max_linear_scan.2.2.2 [3, 7, 2] ⟨7, by norm_num, by norm_num⟩⟩

/-- Rows of `flatten_indices` starting at row index `k`: when each length is at
most `width`, the produced indices are pairwise increasing and bounded below by
`k * width`. -/
lemma flatten_enumFrom_spec (lens : List Nat) (width k : Nat)
    (hw : ∀ l ∈ lens, l ≤ width) :
    ((List.enumFrom k lens).flatMap
        (fun il => (List.range il.2).map (fun j => il.1 * width + j))).Pairwise (· < ·)
      ∧ ∀ x ∈ (List.enumFrom k lens).flatMap
          (fun il => (List.range il.2).map (fun j => il.1 * width + j)),
          k * width ≤ x := by
  induction lens generalizing k with
  | nil => simp
  | cons l t ih =>
      have ih' := ih (k + 1) (fun l' hl' => hw l' (List.mem_cons_of_mem _ hl'))
      have hlw : l ≤ width := hw l (List.mem_cons_self _ _)
      have hcons : (List.enumFrom k (l :: t)).flatMap
            (fun il => (List.range il.2).map (fun j => il.1 * width + j))
          = (List.range l).map (fun j => k * width + j)
            ++ (List.enumFrom (k + 1) t).flatMap
                (fun il => (List.range il.2).map (fun j => il.1 * width + j)) := rfl
      rw [hcons]
      constructor
      · rw [List.pairwise_append]
        refine ⟨?_, ih'.1, ?_⟩
        · rw [List.pairwise_map]
          exact (List.pairwise_lt_range l).imp (fun hab => by omega)
        · intro a ha b hb
          obtain ⟨j, hj, rfl⟩ := List.mem_map.mp ha
          have hjw : j < width := lt_of_lt_of_le (List.mem_range.mp hj) hlw
          have hb' : (k + 1) * width ≤ b := ih'.2 b hb
          calc k * width + j < k * width + width := Nat.add_lt_add_left hjw _
            _ = (k + 1) * width := by ring
            _ ≤ b := hb'
      · intro x hx
        rcases List.mem_append.mp hx with hx | hx
        · obtain ⟨j, _, rfl⟩ := List.mem_map.mp hx
          exact Nat.le_add_right _ _
        · exact le_trans (Nat.mul_le_mul_right width (Nat.le_succ k)) (ih'.2 x hx)

/-- C10: when every sequence length is at most `width`, `flatten_indices`
returns a strictly increasing (hence duplicate-free) index list; without that
precondition the output can repeat an index that also lies in a later row's
range, as `seq_lens = [2, 1], width = 1` shows. -/
theorem flatten_indices_strictly_increasing :
    (∀ (seq_lens : List Nat) (width : Nat), (∀ l ∈ seq_lens, l ≤ width) →
        (flatten_indices seq_lens width).Pairwise (· < ·)
          ∧ (flatten_indices seq_lens width).Nodup)
      ∧ flatten_indices [2, 1] 1 = [0, 1, 1]
      ∧ ¬ (flatten_indices [2, 1] 1).Nodup := by
  refine ⟨?_, by decide, by decide⟩
  intro lens width hw
  have hpw : (flatten_indices lens width).Pairwise (· < ·) :=
    (flatten_enumFrom_spec lens width 0 hw).1
  exact ⟨hpw, hpw.imp ne_of_lt⟩

/-- C10 witness: strict increase and distinctness at `seq_lens = [2, 1, 3]`,
`width = 4`, where every length is within the row width. -/
theorem flatten_indices_strictly_increasing_witness :
    (flatten_indices [2, 1, 3] 4).Pairwise (· < ·)
      ∧ (flatten_indices [2, 1, 3] 4).Nodup :=
  flatten_indices_strictly_increasing.1 [2, 1, 3] 4 (by decide)
